import Mathlib

/-!
Verification of the Twitter-Feed repository: a shallow embedding of the
feed linked list (src/feed/feed.go), the Michael–Scott task queue
(queue package), the bounded read-write mutex (lock package), and the
producer/consumer driver (twitter.go main), together with theorems
settling the specification claims.

Go float64 timestamps are modelled by the type TS below: the two
infinities used by the sentinel posts plus finite values, the latter
modelled as rationals (every finite float64 value is a rational and the
order and equality used by the code agree with the rational ones).
-/

namespace Twitter

/-- Timestamp values: -infinity, a finite value, or +infinity,
mirroring the float64 values the Go code uses (math.Inf(-1),
finite floats, math.Inf(1)). -/
inductive TS where
  | negInf : TS
  | fin (t : ℚ) : TS
  | posInf : TS
deriving DecidableEq, Repr

/-- The strict order on timestamps: the Go float64 comparison
curr.timestamp < timestamp restricted to the values that occur. -/
def TS.ltb : TS → TS → Bool
  | .negInf, .negInf => false
  | .negInf, _ => true
  | .fin _, .negInf => false
  | .fin a, .fin b => decide (a < b)
  | .fin _, .posInf => true
  | .posInf, _ => false

theorem TS.ltb_irrefl (a : TS) : TS.ltb a a = false := by
  cases a <;> simp [TS.ltb]

theorem TS.ltb_trans {a b c : TS} (h1 : TS.ltb a b = true)
    (h2 : TS.ltb b c = true) : TS.ltb a c = true := by
  cases a <;> cases b <;> cases c <;> simp_all [TS.ltb]
  exact lt_trans h1 h2

theorem TS.ltb_of_not_of_ne {a b : TS} (h1 : TS.ltb a b = false)
    (h2 : a ≠ b) : TS.ltb b a = true := by
  cases a <;> cases b <;> simp_all [TS.ltb]
  exact lt_of_le_of_ne h1 (fun h => h2 h.symm)

theorem TS.ltb_posInf_left (a : TS) : TS.ltb TS.posInf a = false := by
  cases a <;> simp [TS.ltb]

/-- Finite timestamps, i.e. real (non-sentinel) post timestamps. -/
def TS.finite : TS → Bool
  | .fin _ => true
  | _ => false

theorem TS.ltb_posInf_of_finite {a : TS} (h : TS.finite a = true) :
    TS.ltb a TS.posInf = true := by
  cases a <;> simp_all [TS.ltb, TS.finite]

/-- A post on the feed: the body text and the timestamp
(feed.go, type post; the next pointer is represented by list order). -/
structure Post where
  body : String
  timestamp : TS
deriving DecidableEq, Repr

/-- The -infinity sentinel created by NewFeed. -/
def startSentinel : Post := ⟨"null", TS.negInf⟩

/-- The +infinity sentinel created by NewFeed. -/
def endSentinel : Post := ⟨"", TS.posInf⟩

/-- A feed: the chain of posts reachable from the start pointer,
in list order (feed.go, type feed). -/
structure Feed where
  posts : List Post
deriving DecidableEq, Repr

/-- NewFeed: a start sentinel at -infinity whose next is the
+infinity sentinel (feed.go, NewFeed). -/
def NewFeed : Feed := ⟨[startSentinel, endSentinel]⟩

/-- The walk of Add over the chain past the start sentinel: advance
while curr.timestamp < timestamp, then link the new post before curr.
Walking off the end of the chain (curr = nil) would dereference nil in
the Go code; that outcome is none. -/
def addWalk (body : String) (ts : TS) : List Post → Option (List Post)
  | [] => none
  | c :: rest =>
    if TS.ltb c.timestamp ts then
      (addWalk body ts rest).map (fun l => c :: l)
    else
      some (⟨body, ts⟩ :: c :: rest)

/-- Feed.Add (feed.go lines 59-74): walk from start.next and insert. -/
def Feed.Add (f : Feed) (body : String) (ts : TS) : Option Feed :=
  match f.posts with
  | [] => none
  | start :: rest => (addWalk body ts rest).map (fun l => ⟨start :: l⟩)

/-- The walk of Remove: advance while curr.timestamp < timestamp; if
curr.timestamp == timestamp unlink curr and return true, else return
false leaving the chain unchanged (feed.go lines 80-98). -/
def removeWalk (ts : TS) : List Post → Option (List Post × Bool)
  | [] => none
  | c :: rest =>
    if TS.ltb c.timestamp ts then
      (removeWalk ts rest).map (fun p => (c :: p.1, p.2))
    else if c.timestamp = ts then
      some (rest, true)
    else
      some (c :: rest, false)

/-- Feed.Remove (feed.go lines 80-98). -/
def Feed.Remove (f : Feed) (ts : TS) : Option (Feed × Bool) :=
  match f.posts with
  | [] => none
  | start :: rest => (removeWalk ts rest).map (fun p => (⟨start :: p.1⟩, p.2))

/-- The walk of Contains: advance while curr.timestamp < timestamp,
then report curr.timestamp == timestamp (feed.go lines 104-118). -/
def containsWalk (ts : TS) : List Post → Option Bool
  | [] => none
  | c :: rest =>
    if TS.ltb c.timestamp ts then containsWalk ts rest
    else some (decide (c.timestamp = ts))

/-- Feed.Contains (feed.go lines 104-118). -/
def Feed.Contains (f : Feed) (ts : TS) : Option Bool :=
  match f.posts with
  | [] => none
  | _ :: rest => containsWalk ts rest

/-- reverseFeed (feed.go lines 121-126): recursive reversal,
append(reverseFeed(input[1:]), input[0]). -/
def reverseFeed : List (String × TS) → List (String × TS)
  | [] => []
  | x :: xs => reverseFeed xs ++ [x]

/-- The walk of ShowFeed from start.next: collect body/timestamp pairs
while post.timestamp != Inf(1); reaching nil first would dereference
nil in the Go loop condition, hence none (feed.go lines 129-142). -/
def showWalk : List Post → Option (List (String × TS))
  | [] => none
  | c :: rest =>
    if c.timestamp = TS.posInf then some []
    else (showWalk rest).map (fun l => (c.body, c.timestamp) :: l)

/-- Feed.ShowFeed (feed.go lines 129-142): collect then reverse so the
newest post comes first. -/
def Feed.ShowFeed (f : Feed) : Option (List (String × TS)) :=
  match f.posts with
  | [] => none
  | _ :: rest => (showWalk rest).map reverseFeed

/-- The strict timestamp order between posts. -/
def PostLt (a b : Post) : Prop := TS.ltb a.timestamp b.timestamp = true

instance : DecidablePred fun p : Post × Post => PostLt p.1 p.2 := by
  intro p; unfold PostLt; infer_instance

instance (a b : Post) : Decidable (PostLt a b) := by
  unfold PostLt; infer_instance

/-- Well-formedness of a feed as established by NewFeed and preserved
by the operations: the start sentinel, then finite posts in strictly
increasing timestamp order, then the end sentinel. -/
def Wf (f : Feed) : Prop :=
  ∃ mid : List Post,
    f.posts = startSentinel :: mid ++ [endSentinel] ∧
    (∀ p ∈ mid, TS.finite p.timestamp = true) ∧
    mid.Pairwise PostLt

theorem wf_newFeed : Wf NewFeed :=
  ⟨[], rfl, by simp, List.Pairwise.nil⟩

/-- The loop guard shared by the three walks: curr.timestamp < ts. -/
def pwalk (ts : TS) (c : Post) : Bool := TS.ltb c.timestamp ts

theorem head_dropWhile_not {α : Type} (p : α → Bool) :
    ∀ {l : List α} {c : α} {r : List α},
      l.dropWhile p = c :: r → p c = false := by
  intro l
  induction l with
  | nil => intro c r h; cases h
  | cons a l ih =>
    intro c r h
    rw [List.dropWhile_cons] at h
    by_cases hp : p a = true
    · rw [if_pos hp] at h; exact ih h
    · rw [if_neg hp] at h
      cases h
      exact Bool.eq_false_iff.mpr hp

theorem addWalk_split (body : String) (ts : TS) :
    ∀ mid : List Post,
      addWalk body ts (mid ++ [endSentinel]) =
        some (mid.takeWhile (pwalk ts) ++
          (⟨body, ts⟩ : Post) :: (mid.dropWhile (pwalk ts) ++ [endSentinel])) := by
  intro mid
  induction mid with
  | nil =>
    simp [addWalk, endSentinel, pwalk, TS.ltb_posInf_left]
  | cons c rest ih =>
    by_cases hp : pwalk ts c = true
    · have hlt : TS.ltb c.timestamp ts = true := hp
      simp [addWalk, hlt, ih, List.takeWhile_cons, List.dropWhile_cons, hp]
    · have hlt : TS.ltb c.timestamp ts = false := Bool.eq_false_iff.mpr hp
      simp [addWalk, hlt, List.takeWhile_cons, List.dropWhile_cons, pwalk, hp]

theorem containsWalk_of_dropWhile_nil {ts : TS} {mid : List Post}
    (h : mid.dropWhile (pwalk ts) = []) :
    containsWalk ts (mid ++ [endSentinel]) = some (decide (TS.posInf = ts)) := by
  induction mid with
  | nil => simp [containsWalk, endSentinel, TS.ltb_posInf_left]
  | cons c rest ih =>
    rw [List.dropWhile_cons] at h
    by_cases hp : pwalk ts c = true
    · rw [if_pos hp] at h
      have hlt : TS.ltb c.timestamp ts = true := hp
      simp [containsWalk, hlt, ih h]
    · rw [if_neg hp] at h; cases h

theorem containsWalk_of_dropWhile_cons {ts : TS} {mid : List Post}
    {c : Post} {r : List Post} (h : mid.dropWhile (pwalk ts) = c :: r) :
    containsWalk ts (mid ++ [endSentinel]) = some (decide (c.timestamp = ts)) := by
  induction mid with
  | nil => cases h
  | cons a rest ih =>
    rw [List.dropWhile_cons] at h
    by_cases hp : pwalk ts a = true
    · rw [if_pos hp] at h
      have hlt : TS.ltb a.timestamp ts = true := hp
      simp [containsWalk, hlt, ih h]
    · rw [if_neg hp] at h
      cases h
      have hlt : TS.ltb c.timestamp ts = false := Bool.eq_false_iff.mpr hp
      simp [containsWalk, hlt]

theorem removeWalk_of_dropWhile_nil {ts : TS} {mid : List Post}
    (h : mid.dropWhile (pwalk ts) = []) :
    removeWalk ts (mid ++ [endSentinel]) =
      (if TS.posInf = ts then some (mid, true)
       else some (mid ++ [endSentinel], false)) := by
  induction mid with
  | nil =>
    by_cases he : TS.posInf = ts
    · subst he
      simp [removeWalk, endSentinel, TS.ltb_posInf_left]
    · simp [removeWalk, endSentinel, TS.ltb_posInf_left, he]
  | cons c rest ih =>
    rw [List.dropWhile_cons] at h
    by_cases hp : pwalk ts c = true
    · rw [if_pos hp] at h
      have hlt : TS.ltb c.timestamp ts = true := hp
      by_cases he : TS.posInf = ts
      · subst he
        simp [removeWalk, hlt, ih h]
      · simp [removeWalk, hlt, ih h, he]
    · rw [if_neg hp] at h; cases h

theorem removeWalk_of_dropWhile_cons {ts : TS} {mid : List Post}
    {c : Post} {r : List Post} (h : mid.dropWhile (pwalk ts) = c :: r) :
    removeWalk ts (mid ++ [endSentinel]) =
      (if c.timestamp = ts
       then some (mid.takeWhile (pwalk ts) ++ r ++ [endSentinel], true)
       else some (mid ++ [endSentinel], false)) := by
  induction mid with
  | nil => cases h
  | cons a rest ih =>
    rw [List.dropWhile_cons] at h
    by_cases hp : pwalk ts a = true
    · rw [if_pos hp] at h
      have hlt : TS.ltb a.timestamp ts = true := hp
      by_cases he : c.timestamp = ts
      · simp [removeWalk, hlt, ih h, he, List.takeWhile_cons, hp]
      · simp [removeWalk, hlt, ih h, he]
    · rw [if_neg hp] at h
      cases h
      have hlt : TS.ltb c.timestamp ts = false := Bool.eq_false_iff.mpr hp
      by_cases he : c.timestamp = ts
      · simp [removeWalk, hlt, he, List.takeWhile_cons, hp, TS.ltb_irrefl]
      · simp [removeWalk, hlt, he]

theorem showWalk_split :
    ∀ {mid : List Post}, (∀ p ∈ mid, TS.finite p.timestamp = true) →
      showWalk (mid ++ [endSentinel]) =
        some (mid.map fun p => (p.body, p.timestamp)) := by
  intro mid
  induction mid with
  | nil => intro _; simp [showWalk, endSentinel]
  | cons c rest ih =>
    intro hfin
    have hc : TS.finite c.timestamp = true := hfin c (List.mem_cons_self c rest)
    have hne : ¬ (c.timestamp = TS.posInf) := by
      intro he; rw [he] at hc; simp [TS.finite] at hc
    have ih' := ih (fun p hp => hfin p (List.mem_cons_of_mem c hp))
    simp [showWalk, hne, ih']

theorem reverseFeed_eq_reverse : ∀ l : List (String × TS),
    reverseFeed l = l.reverse := by
  intro l
  induction l with
  | nil => rfl
  | cons x xs ih => simp [reverseFeed, ih]

/-- Inserting a fresh timestamp at the walk's stopping point keeps the
middle section strictly sorted. -/
theorem pairwise_insert_of_fresh {mid : List Post} {ts : TS} {body : String}
    (hs : mid.Pairwise PostLt) (hfresh : ∀ x ∈ mid, x.timestamp ≠ ts) :
    (mid.takeWhile (pwalk ts) ++
      (⟨body, ts⟩ : Post) :: mid.dropWhile (pwalk ts)).Pairwise PostLt := by
  have hsplit := List.takeWhile_append_dropWhile (pwalk ts) mid
  have hdropsub : (mid.dropWhile (pwalk ts)).Sublist mid :=
    List.dropWhile_sublist (pwalk ts)
  have hdp : (mid.dropWhile (pwalk ts)).Pairwise PostLt := hs.sublist hdropsub
  have hnew : ∀ y ∈ mid.dropWhile (pwalk ts),
      TS.ltb ts y.timestamp = true := by
    intro y hy
    obtain ⟨c, r, hcr⟩ : ∃ c r, mid.dropWhile (pwalk ts) = c :: r := by
      cases hd : mid.dropWhile (pwalk ts) with
      | nil => rw [hd] at hy; cases hy
      | cons c r => exact ⟨c, r, rfl⟩
    have hpc : pwalk ts c = false := head_dropWhile_not _ hcr
    have hcmem : c ∈ mid := hdropsub.subset (hcr ▸ List.mem_cons_self c r)
    have hcts : TS.ltb ts c.timestamp = true :=
      TS.ltb_of_not_of_ne hpc (hfresh c hcmem)
    rw [hcr] at hy
    rcases List.mem_cons.mp hy with rfl | hyr
    · exact hcts
    · have hcy : PostLt c y := by
        have := hcr ▸ hdp
        exact (List.pairwise_cons.mp this).1 y hyr
      exact TS.ltb_trans hcts hcy
  rw [List.pairwise_append]
  refine ⟨hs.sublist (List.takeWhile_sublist _), ?_, ?_⟩
  · rw [List.pairwise_cons]
    exact ⟨fun y hy => hnew y hy, hdp⟩
  · intro x hx y hy
    have hpx : pwalk ts x = true := List.mem_takeWhile_imp hx
    rcases List.mem_cons.mp hy with rfl | hyd
    · exact hpx
    · have hmid : mid.Pairwise PostLt := hs
      rw [← hsplit] at hmid
      exact (List.pairwise_append.mp hmid).2.2 x hx y hyd

/-- If some post of a sorted middle section carries the sought
timestamp, the walk stops exactly at it: it heads the dropWhile. -/
theorem dropWhile_head_of_mem {mid : List Post} {ts : TS}
    (hs : mid.Pairwise PostLt) {x : Post} (hx : x ∈ mid)
    (hxts : x.timestamp = ts) :
    ∃ r, mid.dropWhile (pwalk ts) = x :: r := by
  have hxp : pwalk ts x = false := by
    simp [pwalk, hxts, TS.ltb_irrefl]
  have hxnt : x ∉ mid.takeWhile (pwalk ts) := by
    intro hmem
    have := List.mem_takeWhile_imp hmem
    rw [hxp] at this; cases this
  have hxd : x ∈ mid.dropWhile (pwalk ts) := by
    have hx' := hx
    rw [← List.takeWhile_append_dropWhile (pwalk ts) mid] at hx'
    rcases List.mem_append.mp hx' with h | h
    · exact absurd h hxnt
    · exact h
  obtain ⟨c, r, hcr⟩ : ∃ c r, mid.dropWhile (pwalk ts) = c :: r := by
    cases hd : mid.dropWhile (pwalk ts) with
    | nil => rw [hd] at hxd; cases hxd
    | cons c r => exact ⟨c, r, rfl⟩
  have hpc : pwalk ts c = false := head_dropWhile_not _ hcr
  have hdp : (mid.dropWhile (pwalk ts)).Pairwise PostLt :=
    hs.sublist (List.dropWhile_sublist _)
  rw [hcr] at hxd
  rcases List.mem_cons.mp hxd with rfl | hxr
  · exact ⟨r, hcr⟩
  · exfalso
    have hcx : PostLt c x := by
      have := hcr ▸ hdp
      exact (List.pairwise_cons.mp this).1 x hxr
    have : TS.ltb c.timestamp ts = true := by rw [← hxts]; exact hcx
    rw [show pwalk ts c = TS.ltb c.timestamp ts from rfl, this] at hpc
    cases hpc

/-- Whether a post with the given finite timestamp is present in the
feed chain. -/
def presentB (f : Feed) (t : ℚ) : Bool :=
  f.posts.any (fun p => decide (p.timestamp = TS.fin t))

theorem presentB_eq_mid {f : Feed} (mid : List Post)
    (hmid : f.posts = startSentinel :: mid ++ [endSentinel]) (t : ℚ) :
    presentB f t = mid.any (fun p => decide (p.timestamp = TS.fin t)) := by
  simp [presentB, hmid, startSentinel, endSentinel]

/-- In a strictly sorted list, no element outside a given position
shares its timestamp. -/
theorem ts_unique_of_pairwise {l1 l2 : List Post} {c : Post}
    (hs : (l1 ++ c :: l2).Pairwise PostLt) :
    ∀ x ∈ l1 ++ l2, x.timestamp ≠ c.timestamp := by
  intro x hx he
  rcases List.mem_append.mp hx with h1 | h2
  · have hxc : TS.ltb x.timestamp c.timestamp = true :=
      (List.pairwise_append.mp hs).2.2 x h1 c (List.mem_cons_self c l2)
    rw [he, TS.ltb_irrefl] at hxc; cases hxc
  · have hcx : TS.ltb c.timestamp x.timestamp = true :=
      (List.pairwise_cons.mp (List.pairwise_append.mp hs).2.1).1 x h2
    rw [he, TS.ltb_irrefl] at hcx; cases hcx

theorem contains_cons {start : Post} {rest : List Post} {ts : TS} :
    Feed.Contains ⟨start :: rest⟩ ts = containsWalk ts rest := rfl

theorem add_cons {start : Post} {rest : List Post} {b : String} {ts : TS} :
    Feed.Add ⟨start :: rest⟩ b ts =
      (addWalk b ts rest).map (fun l => ⟨start :: l⟩) := rfl

theorem remove_cons {start : Post} {rest : List Post} {ts : TS} :
    Feed.Remove ⟨start :: rest⟩ ts =
      (removeWalk ts rest).map (fun p => (⟨start :: p.1⟩, p.2)) := rfl

theorem showFeed_cons {start : Post} {rest : List Post} :
    Feed.ShowFeed ⟨start :: rest⟩ = (showWalk rest).map reverseFeed := rfl

/-- Contains, on a well-formed feed with a finite query, reports
exactly presence of the timestamp (feed.go lines 104-118). -/
theorem contains_wf {f : Feed} (hwf : Wf f) (t : ℚ) :
    f.Contains (TS.fin t) = some (presentB f t) := by
  obtain ⟨mid, hmid, _, hs⟩ := hwf
  obtain ⟨posts⟩ := f
  have hmid' : posts = startSentinel :: mid ++ [endSentinel] := hmid
  subst hmid'
  rw [presentB_eq_mid mid rfl]
  show containsWalk (TS.fin t) (mid ++ [endSentinel]) = _
  cases hd : mid.dropWhile (pwalk (TS.fin t)) with
  | nil =>
    rw [containsWalk_of_dropWhile_nil hd]
    have hany : mid.any (fun p => decide (p.timestamp = TS.fin t)) = false := by
      rw [Bool.eq_false_iff]
      intro h
      obtain ⟨x, hx, hxts⟩ := List.any_eq_true.mp h
      obtain ⟨r, hr⟩ := dropWhile_head_of_mem hs hx (of_decide_eq_true hxts)
      rw [hd] at hr; cases hr
    simp [hany]
  | cons c r =>
    rw [containsWalk_of_dropWhile_cons hd]
    by_cases he : c.timestamp = TS.fin t
    · have hcmem : c ∈ mid :=
        (List.dropWhile_sublist _).subset (hd ▸ List.mem_cons_self c r)
      have hany : mid.any (fun p => decide (p.timestamp = TS.fin t)) = true :=
        List.any_eq_true.mpr ⟨c, hcmem, by simp [he]⟩
      simp [hany, he]
    · have hany : mid.any (fun p => decide (p.timestamp = TS.fin t)) = false := by
        rw [Bool.eq_false_iff]
        intro h
        obtain ⟨x, hx, hxts⟩ := List.any_eq_true.mp h
        obtain ⟨r', hr'⟩ := dropWhile_head_of_mem hs hx (of_decide_eq_true hxts)
        rw [hd] at hr'
        cases hr'
        exact he (of_decide_eq_true hxts)
      simp [hany, he]

/-- Add of a fresh finite timestamp on a well-formed feed: succeeds,
preserves well-formedness, and adds exactly that timestamp
(feed.go lines 59-74). -/
theorem add_wf {f : Feed} {t : ℚ} (body : String) (hwf : Wf f)
    (hfresh : presentB f t = false) :
    ∃ f', f.Add body (TS.fin t) = some f' ∧ Wf f' ∧
      ∀ u : ℚ, presentB f' u = (decide (u = t) || presentB f u) := by
  obtain ⟨mid, hmid, hfin, hs⟩ := hwf
  obtain ⟨posts⟩ := f
  have hmid' : posts = startSentinel :: mid ++ [endSentinel] := hmid
  subst hmid'
  have hfr : ∀ x ∈ mid, x.timestamp ≠ TS.fin t := by
    intro x hx he
    have : presentB ⟨startSentinel :: mid ++ [endSentinel]⟩ t = true := by
      rw [presentB_eq_mid mid rfl]
      exact List.any_eq_true.mpr ⟨x, hx, by simp [he]⟩
    rw [hfresh] at this; cases this
  refine ⟨⟨startSentinel ::
      (mid.takeWhile (pwalk (TS.fin t)) ++
        (⟨body, TS.fin t⟩ : Post) :: mid.dropWhile (pwalk (TS.fin t))) ++
      [endSentinel]⟩, ?_, ?_, ?_⟩
  · show (addWalk body (TS.fin t) (mid ++ [endSentinel])).map
        (fun l => (⟨startSentinel :: l⟩ : Feed)) = _
    rw [addWalk_split]
    simp
  · refine ⟨mid.takeWhile (pwalk (TS.fin t)) ++
      (⟨body, TS.fin t⟩ : Post) :: mid.dropWhile (pwalk (TS.fin t)), by simp, ?_, ?_⟩
    · intro p hp
      rcases List.mem_append.mp hp with h1 | h2
      · exact hfin p ((List.takeWhile_sublist _).subset h1)
      · rcases List.mem_cons.mp h2 with rfl | h3
        · rfl
        · exact hfin p ((List.dropWhile_sublist _).subset h3)
    · exact pairwise_insert_of_fresh hs hfr
  · intro u
    rw [presentB_eq_mid mid rfl,
      presentB_eq_mid (mid.takeWhile (pwalk (TS.fin t)) ++
        (⟨body, TS.fin t⟩ : Post) :: mid.dropWhile (pwalk (TS.fin t))) (by simp)]
    by_cases hu : u = t
    · subst hu
      simp [List.any_append, List.any_cons]
    · have hne : (TS.fin t = TS.fin u) = False := by
        simp [TS.fin.injEq]
        exact fun h => hu h.symm
      have h1 : ((mid.takeWhile (pwalk (TS.fin t)) ++
          (⟨body, TS.fin t⟩ : Post) :: mid.dropWhile (pwalk (TS.fin t))).any
          (fun p => decide (p.timestamp = TS.fin u)))
          = (mid.any (fun p => decide (p.timestamp = TS.fin u))) := by
        simp [List.any_append, List.any_cons, hne]
        rw [← List.any_append, List.takeWhile_append_dropWhile]
      rw [h1]
      simp [hu]

/-- Remove of a present finite timestamp on a well-formed feed:
returns true, unlinks exactly that post (feed.go lines 80-98). -/
theorem remove_wf_present {f : Feed} {t : ℚ} (hwf : Wf f)
    (hpres : presentB f t = true) :
    ∃ f', f.Remove (TS.fin t) = some (f', true) ∧ Wf f' ∧
      ∀ u : ℚ, presentB f' u = (presentB f u && !(decide (u = t))) := by
  obtain ⟨mid, hmid, hfin, hs⟩ := hwf
  obtain ⟨posts⟩ := f
  have hmid' : posts = startSentinel :: mid ++ [endSentinel] := hmid
  subst hmid'
  obtain ⟨x, hx, hxts⟩ : ∃ x ∈ mid, x.timestamp = TS.fin t := by
    rw [presentB_eq_mid mid rfl] at hpres
    obtain ⟨x, hx, hxts⟩ := List.any_eq_true.mp hpres
    exact ⟨x, hx, of_decide_eq_true hxts⟩
  obtain ⟨r, hr⟩ := dropWhile_head_of_mem hs hx hxts
  have hmidsplit : mid = mid.takeWhile (pwalk (TS.fin t)) ++ x :: r := by
    rw [← hr, List.takeWhile_append_dropWhile]
  have hs' : (mid.takeWhile (pwalk (TS.fin t)) ++ x :: r).Pairwise PostLt := by
    rw [← hmidsplit]; exact hs
  refine ⟨⟨startSentinel ::
      (mid.takeWhile (pwalk (TS.fin t)) ++ r) ++ [endSentinel]⟩, ?_, ?_, ?_⟩
  · show (removeWalk (TS.fin t) (mid ++ [endSentinel])).map
        (fun p => ((⟨startSentinel :: p.1⟩ : Feed), p.2)) = _
    rw [removeWalk_of_dropWhile_cons hr, if_pos hxts]
    simp
  · refine ⟨mid.takeWhile (pwalk (TS.fin t)) ++ r, by simp, ?_, ?_⟩
    · intro p hp
      rcases List.mem_append.mp hp with h1 | h2
      · exact hfin p ((List.takeWhile_sublist _).subset h1)
      · exact hfin p (hmidsplit ▸ List.mem_append.mpr
          (Or.inr (List.mem_cons_of_mem x h2)))
    · exact hs'.sublist ((List.sublist_cons_self x r).append_left _)
  · intro u
    rw [presentB_eq_mid mid rfl,
      presentB_eq_mid (mid.takeWhile (pwalk (TS.fin t)) ++ r) (by simp)]
    conv_rhs => rw [hmidsplit]
    by_cases hu : u = t
    · subst hu
      have hnone : ∀ y ∈ mid.takeWhile (pwalk (TS.fin u)) ++ r,
          y.timestamp ≠ TS.fin u := by
        intro y hy
        have := ts_unique_of_pairwise hs' y hy
        rw [hxts] at this
        exact this
      have hany : (mid.takeWhile (pwalk (TS.fin u)) ++ r).any
          (fun p => decide (p.timestamp = TS.fin u)) = false := by
        rw [Bool.eq_false_iff]
        intro h
        obtain ⟨y, hy, hyts⟩ := List.any_eq_true.mp h
        exact hnone y hy (of_decide_eq_true hyts)
      simp [hany]
    · have hxu : (x.timestamp = TS.fin u) = False := by
        rw [hxts]
        simp [TS.fin.injEq]
        exact fun h => hu h.symm
      simp [List.any_append, List.any_cons, hu, hxu]

/-- Remove of an absent finite timestamp on a well-formed feed:
returns false and leaves the feed unchanged (feed.go lines 80-98). -/
theorem remove_wf_absent {f : Feed} {t : ℚ} (hwf : Wf f)
    (habs : presentB f t = false) :
    f.Remove (TS.fin t) = some (f, false) := by
  obtain ⟨mid, hmid, _, hs⟩ := hwf
  obtain ⟨posts⟩ := f
  have hmid' : posts = startSentinel :: mid ++ [endSentinel] := hmid
  subst hmid'
  cases hd : mid.dropWhile (pwalk (TS.fin t)) with
  | nil =>
    show (removeWalk (TS.fin t) (mid ++ [endSentinel])).map
        (fun p => ((⟨startSentinel :: p.1⟩ : Feed), p.2)) = _
    rw [removeWalk_of_dropWhile_nil hd, if_neg (by intro h; cases h)]
    simp
  | cons c r =>
    have he : ¬ (c.timestamp = TS.fin t) := by
      intro he
      have hcmem : c ∈ mid :=
        (List.dropWhile_sublist _).subset (hd ▸ List.mem_cons_self c r)
      have : presentB ⟨startSentinel :: mid ++ [endSentinel]⟩ t = true := by
        rw [presentB_eq_mid mid rfl]
        exact List.any_eq_true.mpr ⟨c, hcmem, by simp [he]⟩
      rw [habs] at this; cases this
    show (removeWalk (TS.fin t) (mid ++ [endSentinel])).map
        (fun p => ((⟨startSentinel :: p.1⟩ : Feed), p.2)) = _
    rw [removeWalk_of_dropWhile_cons hd, if_neg he]
    simp

theorem containsWalk_posInf {mid : List Post}
    (hfin : ∀ p ∈ mid, TS.finite p.timestamp = true) :
    containsWalk TS.posInf (mid ++ [endSentinel]) = some true := by
  induction mid with
  | nil => simp [containsWalk, endSentinel, TS.ltb_posInf_left]
  | cons c rest ih =>
    have hc : TS.ltb c.timestamp TS.posInf = true :=
      TS.ltb_posInf_of_finite (hfin c (List.mem_cons_self c rest))
    simp [containsWalk, hc,
      ih (fun p hp => hfin p (List.mem_cons_of_mem c hp))]

theorem removeWalk_posInf {mid : List Post}
    (hfin : ∀ p ∈ mid, TS.finite p.timestamp = true) :
    removeWalk TS.posInf (mid ++ [endSentinel]) = some (mid, true) := by
  induction mid with
  | nil => simp [removeWalk, endSentinel, TS.ltb_posInf_left]
  | cons c rest ih =>
    have hc : TS.ltb c.timestamp TS.posInf = true :=
      TS.ltb_posInf_of_finite (hfin c (List.mem_cons_self c rest))
    simp [removeWalk, hc,
      ih (fun p hp => hfin p (List.mem_cons_of_mem c hp))]

/-- The full chain of a well-formed feed is strictly increasing,
sentinels included. -/
theorem chain_pairwise {mid : List Post}
    (hfin : ∀ p ∈ mid, TS.finite p.timestamp = true)
    (hs : mid.Pairwise PostLt) :
    (startSentinel :: mid ++ [endSentinel]).Pairwise PostLt := by
  refine List.Pairwise.cons ?_ ?_
  · intro p hp
    rcases List.mem_append.mp hp with h1 | h2
    · have := hfin p h1
      cases hts : p.timestamp with
      | negInf => rw [hts] at this; cases this
      | fin q => show TS.ltb startSentinel.timestamp p.timestamp = true
                 rw [hts]; rfl
      | posInf => rw [hts] at this; cases this
    · rcases List.mem_singleton.mp h2 with rfl
      rfl
  · show List.Pairwise PostLt (mid ++ [endSentinel])
    rw [List.pairwise_append]
    refine ⟨hs, List.pairwise_singleton _ _, ?_⟩
    intro p hp q hq
    rcases List.mem_singleton.mp hq with rfl
    exact TS.ltb_posInf_of_finite (hfin p hp)

/-- C10. The +infinity sentinel is reachable through the public
interface: Contains(+inf) answers true on every well-formed feed,
Remove(+inf) answers true and unlinks the terminal sentinel, and on
the resulting chain (concretely, removal from the empty feed) a
subsequent Contains or Add walk runs off the nil next pointer — the
error outcome of the embedded traversal. -/
theorem c10_posInf_sentinel_reachable (f : Feed) (hwf : Wf f) :
    f.Contains TS.posInf = some true ∧
    (∃ mid, f.posts = startSentinel :: mid ++ [endSentinel] ∧
      f.Remove TS.posInf = some (⟨startSentinel :: mid⟩, true)) ∧
    Feed.Remove NewFeed TS.posInf = some (⟨[startSentinel]⟩, true) ∧
    Feed.Contains ⟨[startSentinel]⟩ (TS.fin 0) = none ∧
    Feed.Add ⟨[startSentinel]⟩ "x" (TS.fin 0) = none := by
  obtain ⟨mid, hmid, hfin, _⟩ := hwf
  obtain ⟨posts⟩ := f
  have hmid' : posts = startSentinel :: mid ++ [endSentinel] := hmid
  subst hmid'
  refine ⟨?_, ⟨mid, rfl, ?_⟩, by decide, rfl, rfl⟩
  · show containsWalk TS.posInf (mid ++ [endSentinel]) = some true
    exact containsWalk_posInf hfin
  · show (removeWalk TS.posInf (mid ++ [endSentinel])).map
        (fun p => ((⟨startSentinel :: p.1⟩ : Feed), p.2)) = _
    rw [removeWalk_posInf hfin]
    rfl

/-- Witness for C10 at the empty feed. -/
theorem c10_witness :
    Wf NewFeed ∧
    (NewFeed.Contains TS.posInf = some true ∧
      (∃ mid, NewFeed.posts = startSentinel :: mid ++ [endSentinel] ∧
        NewFeed.Remove TS.posInf = some (⟨startSentinel :: mid⟩, true)) ∧
      Feed.Remove NewFeed TS.posInf = some (⟨[startSentinel]⟩, true) ∧
      Feed.Contains ⟨[startSentinel]⟩ (TS.fin 0) = none ∧
      Feed.Add ⟨[startSentinel]⟩ "x" (TS.fin 0) = none) :=
  ⟨wf_newFeed, c10_posInf_sentinel_reachable NewFeed wf_newFeed⟩

/-- C6. On a feed already holding a post with timestamp t, a further
Add(b, t) is not rejected: it inserts a second post with the equal
timestamp immediately before the existing one, and the strict
ordering of the chain no longer holds. -/
theorem c6_duplicate_inserted {f : Feed} {t : ℚ} (b : String)
    (hwf : Wf f) (hmem : presentB f t = true) :
    ∃ l1 x l2, f.posts = l1 ++ x :: l2 ∧ x.timestamp = TS.fin t ∧
      f.Add b (TS.fin t) = some ⟨l1 ++ (⟨b, TS.fin t⟩ : Post) :: x :: l2⟩ ∧
      ¬ (l1 ++ (⟨b, TS.fin t⟩ : Post) :: x :: l2).Pairwise PostLt := by
  obtain ⟨mid, hmid, hfin, hs⟩ := hwf
  obtain ⟨posts⟩ := f
  have hmid' : posts = startSentinel :: mid ++ [endSentinel] := hmid
  subst hmid'
  obtain ⟨x, hx, hxts⟩ : ∃ x ∈ mid, x.timestamp = TS.fin t := by
    rw [presentB_eq_mid mid rfl] at hmem
    obtain ⟨x, hx, hxts⟩ := List.any_eq_true.mp hmem
    exact ⟨x, hx, of_decide_eq_true hxts⟩
  obtain ⟨r, hr⟩ := dropWhile_head_of_mem hs hx hxts
  have hmidsplit : mid = mid.takeWhile (pwalk (TS.fin t)) ++ x :: r := by
    rw [← hr, List.takeWhile_append_dropWhile]
  refine ⟨startSentinel :: mid.takeWhile (pwalk (TS.fin t)), x,
    r ++ [endSentinel], ?_, hxts, ?_, ?_⟩
  · conv_lhs => rw [hmidsplit]
    simp
  · show (addWalk b (TS.fin t) (mid ++ [endSentinel])).map
        (fun l => (⟨startSentinel :: l⟩ : Feed)) = _
    rw [addWalk_split]
    rw [hr]
    simp
  · intro hp
    have hsub : ((⟨b, TS.fin t⟩ : Post) :: x :: (r ++ [endSentinel])).Pairwise
        PostLt := hp.sublist (List.sublist_append_right _ _)
    have hlt : PostLt ⟨b, TS.fin t⟩ x :=
      (List.pairwise_cons.mp hsub).1 x (List.mem_cons_self x _)
    have : TS.ltb (TS.fin t) (TS.fin t) = true := by
      have h' : TS.ltb (TS.fin t) x.timestamp = true := hlt
      rw [hxts] at h'
      exact h'
    rw [TS.ltb_irrefl] at this
    cases this

/-- Witness for C6: a feed holding the single post at timestamp 1
receives a second post with timestamp 1. -/
theorem c6_witness :
    Wf ⟨[startSentinel, ⟨"a", TS.fin 1⟩, endSentinel]⟩ ∧
    presentB ⟨[startSentinel, ⟨"a", TS.fin 1⟩, endSentinel]⟩ 1 = true ∧
    (∃ l1 x l2,
      (⟨[startSentinel, ⟨"a", TS.fin 1⟩, endSentinel]⟩ : Feed).posts =
        l1 ++ x :: l2 ∧
      x.timestamp = TS.fin 1 ∧
      Feed.Add ⟨[startSentinel, ⟨"a", TS.fin 1⟩, endSentinel]⟩ "b" (TS.fin 1) =
        some ⟨l1 ++ (⟨"b", TS.fin 1⟩ : Post) :: x :: l2⟩ ∧
      ¬ (l1 ++ (⟨"b", TS.fin 1⟩ : Post) :: x :: l2).Pairwise PostLt) :=
  ⟨⟨[⟨"a", TS.fin 1⟩], rfl, by simp [TS.finite], by simp⟩, by decide,
    c6_duplicate_inserted "b"
      ⟨[⟨"a", TS.fin 1⟩], rfl, by simp [TS.finite], by simp⟩ (by decide)⟩

/-- C8. ShowFeed on a well-formed feed returns one body/timestamp
record per non-sentinel post, in strictly decreasing timestamp order:
exactly the reverse of the stored ascending list, sentinels excluded.
(The embedding is purely functional, so the feed itself is untouched
by the call.) -/
theorem c8_showFeed_reverse (f : Feed) (mid : List Post)
    (hmid : f.posts = startSentinel :: mid ++ [endSentinel])
    (hfin : ∀ p ∈ mid, TS.finite p.timestamp = true)
    (hs : mid.Pairwise PostLt) :
    f.ShowFeed = some ((mid.map fun p => (p.body, p.timestamp)).reverse) ∧
    ((mid.map fun p => (p.body, p.timestamp)).reverse).Pairwise
      (fun a b => TS.ltb b.2 a.2 = true) := by
  obtain ⟨posts⟩ := f
  have hmid' : posts = startSentinel :: mid ++ [endSentinel] := hmid
  subst hmid'
  constructor
  · show (showWalk (mid ++ [endSentinel])).map reverseFeed = _
    rw [showWalk_split hfin]
    simp [reverseFeed_eq_reverse]
  · rw [List.pairwise_reverse]
    exact hs.map _ (fun a b hab => hab)

/-- Witness for C8 on a feed of two posts. -/
theorem c8_witness :
    (⟨[startSentinel, ⟨"a", TS.fin 1⟩, ⟨"b", TS.fin 2⟩, endSentinel]⟩ :
        Feed).posts =
      startSentinel :: [⟨"a", TS.fin 1⟩, ⟨"b", TS.fin 2⟩] ++ [endSentinel] ∧
    (Feed.ShowFeed ⟨[startSentinel, ⟨"a", TS.fin 1⟩, ⟨"b", TS.fin 2⟩,
        endSentinel]⟩ =
      some [("b", TS.fin 2), ("a", TS.fin 1)] ∧
    ([("b", TS.fin 2), ("a", TS.fin 1)] :
        List (String × TS)).Pairwise (fun a b => TS.ltb b.2 a.2 = true)) := by
  refine ⟨rfl, ?_⟩
  have h := c8_showFeed_reverse
    ⟨[startSentinel, ⟨"a", TS.fin 1⟩, ⟨"b", TS.fin 2⟩, endSentinel]⟩
    [⟨"a", TS.fin 1⟩, ⟨"b", TS.fin 2⟩] rfl
    (by simp [TS.finite]) (by simp [PostLt, TS.ltb])
  simpa using h

/-- Add of a fresh finite timestamp, stated on the explicit chain
shape: the result is the sorted insertion, and its timestamp multiset
gains exactly the new timestamp. -/
theorem add_shape {mid : List Post} {t : ℚ} (body : String)
    (hfin : ∀ p ∈ mid, TS.finite p.timestamp = true)
    (hs : mid.Pairwise PostLt)
    (hfresh : TS.fin t ∉ mid.map Post.timestamp) :
    ∃ mid', Feed.Add ⟨startSentinel :: mid ++ [endSentinel]⟩ body (TS.fin t) =
        some ⟨startSentinel :: mid' ++ [endSentinel]⟩ ∧
      (∀ p ∈ mid', TS.finite p.timestamp = true) ∧
      mid'.Pairwise PostLt ∧
      (mid'.map Post.timestamp).Perm (TS.fin t :: mid.map Post.timestamp) := by
  have hfr : ∀ x ∈ mid, x.timestamp ≠ TS.fin t := by
    intro x hx he
    exact hfresh (he ▸ List.mem_map_of_mem Post.timestamp hx)
  refine ⟨mid.takeWhile (pwalk (TS.fin t)) ++
      (⟨body, TS.fin t⟩ : Post) :: mid.dropWhile (pwalk (TS.fin t)),
    ?_, ?_, ?_, ?_⟩
  · show (addWalk body (TS.fin t) (mid ++ [endSentinel])).map
        (fun l => (⟨startSentinel :: l⟩ : Feed)) = _
    rw [addWalk_split]
    simp
  · intro p hp
    rcases List.mem_append.mp hp with h1 | h2
    · exact hfin p ((List.takeWhile_sublist _).subset h1)
    · rcases List.mem_cons.mp h2 with rfl | h3
      · rfl
      · exact hfin p ((List.dropWhile_sublist _).subset h3)
  · exact pairwise_insert_of_fresh hs hfr
  · rw [List.map_append, List.map_cons]
    refine List.Perm.trans List.perm_middle ?_
    rw [← List.map_append, List.takeWhile_append_dropWhile]

/-- applyAdds: fold a sequence of Add calls over a feed
(the Add dispatch of the drivers in twitter.go). -/
def applyAdds (f : Feed) : List (String × ℚ) → Option Feed
  | [] => some f
  | (b, t) :: rest =>
    match f.Add b (TS.fin t) with
    | none => none
    | some f' => applyAdds f' rest

theorem applyAdds_wf :
    ∀ (adds : List (String × ℚ)) (mid : List Post),
      (∀ p ∈ mid, TS.finite p.timestamp = true) →
      mid.Pairwise PostLt →
      (∀ a ∈ adds, (TS.fin a.2) ∉ mid.map Post.timestamp) →
      (adds.map Prod.snd).Nodup →
      ∃ mid', applyAdds ⟨startSentinel :: mid ++ [endSentinel]⟩ adds =
          some ⟨startSentinel :: mid' ++ [endSentinel]⟩ ∧
        (∀ p ∈ mid', TS.finite p.timestamp = true) ∧
        mid'.Pairwise PostLt ∧
        (mid'.map Post.timestamp).Perm
          (mid.map Post.timestamp ++ adds.map (fun a => TS.fin a.2)) := by
  intro adds
  induction adds with
  | nil =>
    intro mid hfin hs _ _
    exact ⟨mid, rfl, hfin, hs, by simp⟩
  | cons a rest ih =>
    intro mid hfin hs hfresh hnd
    obtain ⟨b, t⟩ := a
    have hnd' : (t :: rest.map Prod.snd).Nodup := by
      rw [List.map_cons] at hnd; exact hnd
    obtain ⟨mid1, hadd, hfin1, hs1, hperm1⟩ :=
      add_shape b hfin hs (hfresh (b, t) (List.mem_cons_self _ _))
    have hfresh1 : ∀ a ∈ rest, (TS.fin a.2) ∉ mid1.map Post.timestamp := by
      intro a ha hmem
      have hmem' := (hperm1.mem_iff).mp hmem
      rcases List.mem_cons.mp hmem' with he | hmem2
      · have hsnd : a.2 = t := by
          injection he
        have hmem3 : a.2 ∈ (rest.map Prod.snd) := List.mem_map_of_mem Prod.snd ha
        rw [hsnd] at hmem3
        exact (List.nodup_cons.mp hnd').1 hmem3
      · exact hfresh a (List.mem_cons_of_mem _ ha) hmem2
    obtain ⟨mid', happ, hfin', hs', hperm'⟩ := ih mid1 hfin1 hs1 hfresh1
      (List.nodup_cons.mp hnd').2
    refine ⟨mid', ?_, hfin', hs', ?_⟩
    · show (match Feed.Add ⟨startSentinel :: mid ++ [endSentinel]⟩ b (TS.fin t) with
        | none => none
        | some f' => applyAdds f' rest) = _
      rw [hadd]
      exact happ
    · refine hperm'.trans ?_
      refine List.Perm.trans (hperm1.append_right _) ?_
      show ((TS.fin t :: mid.map Post.timestamp) ++
        rest.map fun a => TS.fin a.2).Perm _
      simp only [List.cons_append]
      exact (List.perm_middle).symm

/-- C5. Any sequence of Add calls with pairwise distinct finite
timestamps on a fresh feed succeeds and leaves the chain as: the
-infinity sentinel at the head, the non-sentinel posts in strictly
increasing timestamp order (one per Add, by timestamp multiset), and
the +infinity sentinel terminating the list. -/
theorem c5_adds_sorted (adds : List (String × ℚ))
    (hnd : (adds.map Prod.snd).Nodup) :
    ∃ mid : List Post,
      applyAdds NewFeed adds = some ⟨startSentinel :: mid ++ [endSentinel]⟩ ∧
      (startSentinel :: mid ++ [endSentinel]).Pairwise PostLt ∧
      (∀ p ∈ mid, TS.finite p.timestamp = true) ∧
      (mid.map Post.timestamp).Perm (adds.map (fun a => TS.fin a.2)) := by
  obtain ⟨mid', happ, hfin', hs', hperm'⟩ :=
    applyAdds_wf adds [] (by simp) (by simp) (by simp) hnd
  exact ⟨mid', happ, chain_pairwise hfin' hs', hfin', by simpa using hperm'⟩

/-- Witness for C5 on three adds with out-of-order timestamps. -/
theorem c5_witness :
    (([("a", (3 : ℚ)), ("b", 1), ("c", 2)].map Prod.snd).Nodup) ∧
    (∃ mid : List Post,
      applyAdds NewFeed [("a", (3 : ℚ)), ("b", 1), ("c", 2)] =
        some ⟨startSentinel :: mid ++ [endSentinel]⟩ ∧
      (startSentinel :: mid ++ [endSentinel]).Pairwise PostLt ∧
      (∀ p ∈ mid, TS.finite p.timestamp = true) ∧
      (mid.map Post.timestamp).Perm
        ([("a", (3 : ℚ)), ("b", 1), ("c", 2)].map (fun a => TS.fin a.2))) :=
  ⟨by decide, c5_adds_sorted _ (by decide)⟩

/-- A feed mutation request, as dispatched by the drivers in
twitter.go (ADD and REMOVE commands). -/
inductive Op where
  | add (body : String) (t : ℚ)
  | rem (t : ℚ)
deriving DecidableEq, Repr

/-- Execute one operation against the feed. -/
def applyOp (f : Feed) : Op → Option Feed
  | .add b t => f.Add b (TS.fin t)
  | .rem t => (f.Remove (TS.fin t)).map Prod.fst

/-- Execute a sequence of operations against the feed. -/
def applyOps (f : Feed) : List Op → Option Feed
  | [] => some f
  | op :: rest =>
    match applyOp f op with
    | none => none
    | some f' => applyOps f' rest

/-- The input contract on a sequence of operations: every Add carries
a timestamp not currently present (the distinctness assumption), and
every walk completes. -/
def validOps (f : Feed) : List Op → Bool
  | [] => true
  | .add b t :: rest =>
    (!(presentB f t)) &&
      (match f.Add b (TS.fin t) with
       | none => false
       | some f' => validOps f' rest)
  | .rem t :: rest =>
    (match f.Remove (TS.fin t) with
     | none => false
     | some p => validOps p.1 rest)

/-- The specification-side presence fold: after the operations, the
timestamp is present exactly when its last Add has not been followed
by a Remove of it. -/
def specPresent (q : ℚ) (ops : List Op) (init : Bool) : Bool :=
  ops.foldl (fun b op =>
    match op with
    | .add _ u => if u = q then true else b
    | .rem u => if u = q then false else b) init

theorem applyOps_wf :
    ∀ (ops : List Op) (f : Feed), Wf f → validOps f ops = true →
      ∃ f', applyOps f ops = some f' ∧ Wf f' ∧
        ∀ q : ℚ, presentB f' q = specPresent q ops (presentB f q) := by
  intro ops
  induction ops with
  | nil =>
    intro f hwf _
    exact ⟨f, rfl, hwf, fun q => rfl⟩
  | cons op rest ih =>
    intro f hwf hv
    cases op with
    | add b t =>
      rw [validOps, Bool.and_eq_true] at hv
      have h1 : presentB f t = false := by
        have := hv.1
        rwa [Bool.not_eq_true'] at this
      obtain ⟨f1, hf1, hwf1, hpres1⟩ := add_wf b hwf h1
      have hv2 : validOps f1 rest = true := by
        have := hv.2
        rwa [hf1] at this
      obtain ⟨f', happ, hwf', hpres⟩ := ih f1 hwf1 hv2
      refine ⟨f', ?_, hwf', ?_⟩
      · rw [applyOps]
        show (match f.Add b (TS.fin t) with
          | none => none
          | some f1 => applyOps f1 rest) = _
        rw [hf1]
        exact happ
      · intro q
        rw [hpres q, hpres1 q]
        show _ = specPresent q rest (if t = q then true else presentB f q)
        have : (decide (q = t) || presentB f q) =
            (if t = q then true else presentB f q) := by
          by_cases hq : q = t
          · subst hq; simp
          · have hq' : ¬ t = q := fun h => hq h.symm
            simp [hq, hq']
        rw [this]
    | rem t =>
      rw [validOps] at hv
      by_cases hp : presentB f t = true
      · obtain ⟨f1, hf1, hwf1, hpres1⟩ := remove_wf_present hwf hp
        have hv2 : validOps f1 rest = true := by
          rwa [hf1] at hv
        obtain ⟨f', happ, hwf', hpres⟩ := ih f1 hwf1 hv2
        refine ⟨f', ?_, hwf', ?_⟩
        · rw [applyOps]
          show (match (f.Remove (TS.fin t)).map Prod.fst with
            | none => none
            | some f1 => applyOps f1 rest) = _
          rw [hf1]
          exact happ
        · intro q
          rw [hpres q, hpres1 q]
          show _ = specPresent q rest (if t = q then false else presentB f q)
          have : (presentB f q && !(decide (q = t))) =
              (if t = q then false else presentB f q) := by
            by_cases hq : q = t
            · subst hq; simp
            · have hq' : ¬ t = q := fun h => hq h.symm
              simp [hq, hq']
          rw [this]
      · have hp' : presentB f t = false := by
          rwa [Bool.not_eq_true] at hp
        have hf1 := remove_wf_absent hwf hp'
        have hv2 : validOps f rest = true := by
          rwa [hf1] at hv
        obtain ⟨f', happ, hwf', hpres⟩ := ih f hwf hv2
        refine ⟨f', ?_, hwf', ?_⟩
        · rw [applyOps]
          show (match (f.Remove (TS.fin t)).map Prod.fst with
            | none => none
            | some f1 => applyOps f1 rest) = _
          rw [hf1]
          exact happ
        · intro q
          rw [hpres q]
          show _ = specPresent q rest (if t = q then false else presentB f q)
          have : presentB f q = (if t = q then false else presentB f q) := by
            by_cases hq : t = q
            · subst hq; simp [hp']
            · simp [hq]
          rw [← this]

/-- C7. For every valid sequence of Add/Remove operations on a fresh
feed (each Add with a timestamp not currently present), execution
succeeds, Contains(t) answers true exactly when the last Add of t has
not been followed by a Remove of t, and Remove(t) answers true exactly
when t is then present, leaving the feed unchanged when it answers
false. -/
theorem c7_contains_remove_semantics (ops : List Op)
    (h : validOps NewFeed ops = true) :
    ∃ f, applyOps NewFeed ops = some f ∧
      (∀ t : ℚ, f.Contains (TS.fin t) = some (specPresent t ops false)) ∧
      (∀ t : ℚ, specPresent t ops false = true →
        ∃ f', f.Remove (TS.fin t) = some (f', true)) ∧
      (∀ t : ℚ, specPresent t ops false = false →
        f.Remove (TS.fin t) = some (f, false)) := by
  obtain ⟨f, happ, hwf, hpres⟩ := applyOps_wf ops NewFeed wf_newFeed h
  have hinit : ∀ t : ℚ, presentB NewFeed t = false := fun t => rfl
  refine ⟨f, happ, ?_, ?_, ?_⟩
  · intro t
    rw [contains_wf hwf t, hpres t, hinit t]
  · intro t hsp
    have : presentB f t = true := by rw [hpres t, hinit t]; exact hsp
    obtain ⟨f', hf', _, _⟩ := remove_wf_present hwf this
    exact ⟨f', hf'⟩
  · intro t hsp
    have : presentB f t = false := by rw [hpres t, hinit t]; exact hsp
    exact remove_wf_absent hwf this

/-- Witness for C7: add 1, remove 1, add 2; then 1 is absent and 2 is
present. -/
theorem c7_witness :
    validOps NewFeed [Op.add "a" 1, Op.rem 1, Op.add "b" 2] = true ∧
    (∃ f, applyOps NewFeed [Op.add "a" 1, Op.rem 1, Op.add "b" 2] = some f ∧
      (∀ t : ℚ, f.Contains (TS.fin t) =
        some (specPresent t [Op.add "a" 1, Op.rem 1, Op.add "b" 2] false)) ∧
      (∀ t : ℚ, specPresent t [Op.add "a" 1, Op.rem 1, Op.add "b" 2] false = true →
        ∃ f', f.Remove (TS.fin t) = some (f', true)) ∧
      (∀ t : ℚ, specPresent t [Op.add "a" 1, Op.rem 1, Op.add "b" 2] false = false →
        f.Remove (TS.fin t) = some (f, false))) :=
  ⟨by decide, c7_contains_remove_semantics _ (by decide)⟩

/-- State of the bounded read-write mutex (lock package, README.md
lines 159-238): the reader count, and whether a writer currently sits
between Lock() and Unlock() (the writer keeps the mutex). -/
structure RWState where
  readCount : Int
  writerHolds : Bool
deriving DecidableEq, Repr

/-- Atomic transitions of the lock. Every guarded section of
RLock/RUnlock/Lock runs under the single mutex, so each completed
operation is one step. The rlock guard is the code's parking
condition readCount > 64 (RLock, README.md lines 214-221): a reader
passes the wait loop exactly when readCount is at most 64, then
increments. runlock requires a reader inside; lock waits for
readCount = 0 and keeps the mutex, blocking every other operation
until unlock. -/
inductive RWStep : RWState → RWState → Prop where
  | rlock (s : RWState) : s.writerHolds = false → s.readCount ≤ 64 →
      RWStep s ⟨s.readCount + 1, false⟩
  | runlock (s : RWState) : s.writerHolds = false → 0 < s.readCount →
      RWStep s ⟨s.readCount - 1, false⟩
  | lock (s : RWState) : s.writerHolds = false → s.readCount = 0 →
      RWStep s ⟨0, true⟩
  | unlock (s : RWState) : s.writerHolds = true →
      RWStep s ⟨s.readCount, false⟩

/-- States reachable from the freshly constructed lock (NewRWMutex:
readCount 0, no writer). -/
inductive RWReachable : RWState → Prop where
  | init : RWReachable ⟨0, false⟩
  | step {s s' : RWState} : RWReachable s → RWStep s s' → RWReachable s'

theorem rwReachable_upto (n : Nat) (h : n ≤ 65) :
    RWReachable ⟨(n : Int), false⟩ := by
  induction n with
  | zero => exact RWReachable.init
  | succ k ih =>
    have hk : k ≤ 65 := Nat.le_of_succ_le h
    have hstep : RWStep ⟨(k : Int), false⟩ ⟨(k : Int) + 1, false⟩ :=
      RWStep.rlock ⟨(k : Int), false⟩ rfl (by
        show (k : Int) ≤ 64
        have : k ≤ 64 := Nat.lt_succ_iff.mp h
        exact_mod_cast this)
    have : RWReachable ⟨(k : Int) + 1, false⟩ :=
      RWReachable.step (ih hk) hstep
    have hcast : ((k + 1 : Nat) : Int) = (k : Int) + 1 := by push_cast; ring
    rw [hcast]
    exact this

/-- The true invariant of the lock: the reader count never exceeds 65
(and is never negative) in any reachable state. -/
theorem rwReachable_le (s : RWState) (h : RWReachable s) :
    s.readCount ≤ 65 ∧ 0 ≤ s.readCount := by
  induction h with
  | init => constructor <;> decide
  | step _ hstep ih =>
    cases hstep with
    | rlock hw hle => constructor <;> simp <;> omega
    | runlock hw hpos => constructor <;> simp <;> omega
    | lock hw hz => constructor <;> simp
    | unlock hw => constructor <;> simp [ih.1, ih.2]

/-- C1 (code bug). The claimed cap of 64 concurrent readers is
violated: the state with 65 readers simultaneously between a
completed RLock() and their RUnlock() is reachable — 65 consecutive
RLock() calls all pass the parking condition readCount > 64, because
the 65th reader observes readCount = 64. The README requires the lock
to limit the number of readers to 64. -/
theorem c1_sixtyfive_readers_reachable :
    RWReachable ⟨65, false⟩ ∧ ¬ ((65 : Int) ≤ 64) := by
  constructor
  · have h := rwReachable_upto 65 (le_refl 65)
    norm_num at h
    exact h
  · decide

/-- The outcomes main can assign to the command line: run the
sequential branch, run the concurrent branch with the two raw
argument strings, or print the usage text and stop (printUsage,
twitter.go lines 291-293). -/
inductive Mode where
  | sequential
  | concurrent (threadsArg blockArg : String)
  | usage
deriving DecidableEq, Repr

/-- Argument dispatch of main (twitter.go lines 481-541): os.Args —
the program name included — selects the sequential branch whenever
its length differs from 3, and the concurrent branch otherwise.
printUsage exists but no call site of it does. -/
def mainMode (args : List String) : Mode :=
  if args.length ≠ 3 then Mode.sequential
  else Mode.concurrent (args.getD 1 "") (args.getD 2 "")

/-- Counterexample to C2: with one user-supplied argument (os.Args
length 2) the program does not print the usage message and exit — it
runs the sequential branch, which processes standard input. -/
theorem c2_counterexample :
    mainMode ["twitter", "4"] = Mode.sequential ∧
    Mode.sequential ≠ Mode.usage := by
  constructor
  · rfl
  · intro h; cases h

/-- C2 amended: exactly two user-supplied arguments (os.Args length
3) select concurrent mode carrying those two argument strings; every
other argument count falls into the sequential branch, which
processes standard input; the usage message is never printed. -/
theorem c2_mode_dispatch (args : List String) :
    (args.length = 3 →
      mainMode args = Mode.concurrent (args.getD 1 "") (args.getD 2 "")) ∧
    (args.length ≠ 3 → mainMode args = Mode.sequential) ∧
    mainMode args ≠ Mode.usage := by
  refine ⟨?_, ?_, ?_⟩
  · intro h
    simp [mainMode, h]
  · intro h
    simp [mainMode, h]
  · intro hcontra
    by_cases h : args.length = 3
    · simp [mainMode, h] at hcontra
    · simp [mainMode, h] at hcontra

/-- Witness for C2's amended dispatch at concrete argument vectors. -/
theorem c2_witness :
    (mainMode ["twitter", "4", "3"] = Mode.concurrent "4" "3") ∧
    (mainMode ["twitter", "4"] = Mode.sequential) ∧
    (mainMode ["twitter"] ≠ Mode.usage) :=
  ⟨(c2_mode_dispatch ["twitter", "4", "3"]).1 (by decide),
   (c2_mode_dispatch ["twitter", "4"]).2.1 (by decide),
   (c2_mode_dispatch ["twitter"]).2.2⟩

/-- The decoded form of a JSON payload (twitter.go ClientMessage and
queue.Data share these fields): command, id, body, timestamp, and the
value field that carries the empty-queue marker. -/
structure ClientMessage where
  command : String
  id : Int
  body : String
  timestamp : ℚ
  value : String
deriving DecidableEq, Repr

/-- The zero value a failed json.Unmarshal leaves in a ClientMessage. -/
def zeroCM : ClientMessage := ⟨"", 0, "", 0, ""⟩

/-- The record marshalled by Dequeue when the queue is empty
(queue package, Dequeue lines 258-262): only Value is set, to the
string "sentinel". -/
def sentinelCM : ClientMessage := ⟨"", 0, "", 0, "sentinel"⟩

/-- Task payload bytes: either the raw bytes of one client input
line — carrying its parse result, none when the line is not valid
JSON — or the bytes marshalled from the sentinel record by Dequeue. -/
inductive Bytes where
  | raw (parsed : Option ClientMessage)
  | sentinelPayload
deriving DecidableEq, Repr

/-- json.Unmarshal of a payload into a ClientMessage. The sentinel
payload decodes to the sentinel record. -/
def parseLine : Bytes → Option ClientMessage
  | .raw o => o
  | .sentinelPayload => some sentinelCM

/-- Sequential state of the Michael–Scott queue (queue package):
rest holds the payloads of the nodes after the head sentinel node in
chain order, and tailIdx is the index — 0 being the head sentinel
node — of the node the tail pointer references. A node's next pointer
is nil exactly when it is the last of the chain. -/
structure MSQueue where
  rest : List Bytes
  tailIdx : Nat
deriving DecidableEq, Repr

/-- NewQueue: head and tail reference the same fresh sentinel node
(queue package lines 193-198). -/
def NewQueue : MSQueue := ⟨[], 0⟩

/-- The Enqueue retry loop run by a single thread (queue package
lines 205-232): when the tail's next is non-nil, help the tail
forward one node and retry; otherwise link the new node after the
tail and swing the tail onto it (sequentially every CAS succeeds). -/
def enqLoop (p : Bytes) (q : MSQueue) : MSQueue :=
  if h : q.tailIdx < q.rest.length then
    enqLoop p ⟨q.rest, q.tailIdx + 1⟩
  else
    ⟨q.rest ++ [p], q.rest.length + 1⟩
termination_by q.rest.length - q.tailIdx
decreasing_by
  simp
  omega

/-- Queue.Enqueue. -/
def Enqueue (q : MSQueue) (p : Bytes) : MSQueue := enqLoop p q

/-- The Dequeue retry loop run by a single thread (queue package
lines 243-277): when head.next is nil return the marshalled sentinel
record; when the tail equals the head, help the tail onto head.next
and retry; otherwise swing head to head.next and return its payload. -/
def deqLoop (q : MSQueue) : Bytes × MSQueue :=
  match q.rest with
  | [] => (Bytes.sentinelPayload, q)
  | x :: xs =>
    if h : q.tailIdx = 0 then
      deqLoop ⟨q.rest, 1⟩
    else
      (x, ⟨xs, q.tailIdx - 1⟩)
termination_by (if q.tailIdx = 0 then 1 else 0)
decreasing_by
  simp [h]

/-- Queue.Dequeue. -/
def Dequeue (q : MSQueue) : Bytes × MSQueue := deqLoop q

theorem enqLoop_eq (p : Bytes) (q : MSQueue) :
    enqLoop p q = ⟨q.rest ++ [p], q.rest.length + 1⟩ := by
  rw [enqLoop]
  split
  · exact enqLoop_eq p ⟨q.rest, q.tailIdx + 1⟩
  · rfl
termination_by q.rest.length - q.tailIdx
decreasing_by
  simp
  omega

theorem deqLoop_nil {q : MSQueue} (h : q.rest = []) :
    deqLoop q = (Bytes.sentinelPayload, q) := by
  rw [deqLoop, h]

theorem deqLoop_cons {q : MSQueue} {x : Bytes} {xs : List Bytes}
    (h : q.rest = x :: xs) :
    (deqLoop q).1 = x ∧ (deqLoop q).2.rest = xs := by
  obtain ⟨rest, ti⟩ := q
  have h' : rest = x :: xs := h
  subst h'
  by_cases hti : ti = 0
  · subst hti
    rw [deqLoop]
    simp only [dif_pos rfl]
    rw [deqLoop]
    simp
  · rw [deqLoop]
    simp [hti]

/-- A queue operation of a single-threaded run. -/
inductive QOp where
  | enq (p : Bytes)
  | deq
deriving DecidableEq, Repr

/-- Run a sequence of operations against the embedded Michael–Scott
queue, collecting the value each Dequeue returns. -/
def runMS (q : MSQueue) : List QOp → MSQueue × List Bytes
  | [] => (q, [])
  | QOp.enq p :: rest => runMS (Enqueue q p) rest
  | QOp.deq :: rest =>
    let r := Dequeue q
    let w := runMS r.2 rest
    (w.1, r.1 :: w.2)

/-- Modelled from the spec: the functional FIFO the queue is claimed
to refine — Dequeue removes the oldest element, or returns the
sentinel marker when the queue is empty (spec sections 4.C and 6). -/
def specDequeue : List Bytes → Bytes × List Bytes
  | [] => (Bytes.sentinelPayload, [])
  | x :: xs => (x, xs)

/-- Modelled from the spec: run the same operations against the
functional FIFO list. -/
def runFifo (s : List Bytes) : List QOp → List Bytes × List Bytes
  | [] => (s, [])
  | QOp.enq p :: rest => runFifo (s ++ [p]) rest
  | QOp.deq :: rest =>
    let r := specDequeue s
    let w := runFifo r.2 rest
    (w.1, r.1 :: w.2)

/-- The payloads enqueued by a sequence of operations, in order. -/
def enqList : List QOp → List Bytes
  | [] => []
  | QOp.enq p :: rest => p :: enqList rest
  | QOp.deq :: rest => enqList rest

/-- The non-sentinel entries of a list of dequeued values. -/
def nonSent (l : List Bytes) : List Bytes :=
  l.filter (fun b => decide (b ≠ Bytes.sentinelPayload))

/-- Single-threaded refinement: the Michael–Scott queue and the
functional FIFO produce identical dequeue outputs and identical
contents from any starting content. -/
theorem runMS_refines : ∀ (ops : List QOp) (q : MSQueue),
    (runMS q ops).1.rest = (runFifo q.rest ops).1 ∧
    (runMS q ops).2 = (runFifo q.rest ops).2 := by
  intro ops
  induction ops with
  | nil => intro q; exact ⟨rfl, rfl⟩
  | cons op rest ih =>
    intro q
    cases op with
    | enq p =>
      have he : (Enqueue q p).rest = q.rest ++ [p] := by
        rw [Enqueue, enqLoop_eq]
      constructor
      · show (runMS (Enqueue q p) rest).1.rest = (runFifo (q.rest ++ [p]) rest).1
        rw [← he]
        exact (ih _).1
      · show (runMS (Enqueue q p) rest).2 = (runFifo (q.rest ++ [p]) rest).2
        rw [← he]
        exact (ih _).2
    | deq =>
      cases hr : q.rest with
      | nil =>
        have hd := deqLoop_nil hr
        have hq2 : (Dequeue q).2 = q := by rw [Dequeue, hd]
        have hq1 : (Dequeue q).1 = Bytes.sentinelPayload := by rw [Dequeue, hd]
        constructor
        · show (runMS (Dequeue q).2 rest).1.rest = (runFifo (specDequeue []).2 rest).1
          rw [hq2]
          show (runMS q rest).1.rest = (runFifo [] rest).1
          have := (ih q).1
          rw [hr] at this
          exact this
        · show (Dequeue q).1 :: (runMS (Dequeue q).2 rest).2 =
            (specDequeue []).1 :: (runFifo (specDequeue []).2 rest).2
          rw [hq1, hq2]
          show Bytes.sentinelPayload :: (runMS q rest).2 =
            Bytes.sentinelPayload :: (runFifo [] rest).2
          have := (ih q).2
          rw [hr] at this
          rw [this]
      | cons x xs =>
        obtain ⟨h1, h2⟩ := deqLoop_cons hr
        have hms := ih (Dequeue q).2
        rw [show (Dequeue q).2.rest = xs from h2] at hms
        constructor
        · show (runMS (Dequeue q).2 rest).1.rest = (runFifo xs rest).1
          exact hms.1
        · show (Dequeue q).1 :: (runMS (Dequeue q).2 rest).2 =
            x :: (runFifo xs rest).2
          rw [show (Dequeue q).1 = x from h1, hms.2]

/-- FIFO accounting: the initial content plus everything enqueued
equals the non-sentinel dequeued values followed by the final
content. -/
theorem fifo_account : ∀ (ops : List QOp) (s : List Bytes),
    Bytes.sentinelPayload ∉ s →
    Bytes.sentinelPayload ∉ enqList ops →
    nonSent ((runFifo s ops).2) ++ (runFifo s ops).1 = s ++ enqList ops := by
  intro ops
  induction ops with
  | nil =>
    intro s _ _
    simp [runFifo, nonSent, enqList]
  | cons op rest ih =>
    intro s hs hops
    cases op with
    | enq p =>
      have hp : p ≠ Bytes.sentinelPayload := by
        intro he
        exact hops (by rw [enqList, he]; exact List.mem_cons_self _ _)
      have hrest : Bytes.sentinelPayload ∉ enqList rest := by
        intro hmem
        exact hops (by rw [enqList]; exact List.mem_cons_of_mem _ hmem)
      have hs' : Bytes.sentinelPayload ∉ s ++ [p] := by
        intro hmem
        rcases List.mem_append.mp hmem with h1 | h2
        · exact hs h1
        · rcases List.mem_singleton.mp h2 with rfl
          exact hp rfl
      show nonSent ((runFifo (s ++ [p]) rest).2) ++ (runFifo (s ++ [p]) rest).1
        = s ++ (p :: enqList rest)
      rw [ih (s ++ [p]) hs' hrest]
      simp
    | deq =>
      cases s with
      | nil =>
        show nonSent (Bytes.sentinelPayload :: (runFifo [] rest).2) ++
          (runFifo [] rest).1 = [] ++ enqList rest
        rw [show nonSent (Bytes.sentinelPayload :: (runFifo [] rest).2)
          = nonSent ((runFifo [] rest).2) by simp [nonSent]]
        rw [ih [] (by simp) hops]
      | cons x xs =>
        have hx : x ≠ Bytes.sentinelPayload := by
          intro he
          exact hs (by rw [he]; exact List.mem_cons_self _ _)
        have hxs : Bytes.sentinelPayload ∉ xs := by
          intro hmem
          exact hs (List.mem_cons_of_mem _ hmem)
        show nonSent (x :: (runFifo xs rest).2) ++ (runFifo xs rest).1
          = (x :: xs) ++ enqList rest
        rw [show nonSent (x :: (runFifo xs rest).2)
          = x :: nonSent ((runFifo xs rest).2) by simp [nonSent, hx]]
        rw [List.cons_append, ih xs hxs hops, List.cons_append]

/-- C9. Under single-threaded use the Michael–Scott queue refines the
functional FIFO: the dequeue outputs coincide with those of the FIFO
list — each Dequeue returns the oldest not-yet-dequeued payload, or
the sentinel when none remains — and, whenever no enqueued payload
collides with the sentinel encoding, the non-sentinel dequeued values
are a prefix of the enqueue order (they extend by the remaining
content to the full enqueue list), with equality — multiset and even
order — once the queue is drained. -/
theorem c9_queue_refines_fifo (ops : List QOp)
    (h : Bytes.sentinelPayload ∉ enqList ops) :
    (runMS NewQueue ops).1.rest = (runFifo [] ops).1 ∧
    (runMS NewQueue ops).2 = (runFifo [] ops).2 ∧
    nonSent ((runFifo [] ops).2) ++ (runFifo [] ops).1 = enqList ops ∧
    ((runFifo [] ops).1 = [] →
      nonSent ((runFifo [] ops).2) = enqList ops) := by
  obtain ⟨h1, h2⟩ := runMS_refines ops NewQueue
  have hacc := fifo_account ops [] (by simp) h
  rw [List.nil_append] at hacc
  refine ⟨h1, h2, hacc, ?_⟩
  intro hempty
  rw [hempty, List.append_nil] at hacc
  exact hacc

/-- Witness for C9: two enqueues and three dequeues. -/
theorem c9_witness :
    (Bytes.sentinelPayload ∉ enqList
      [QOp.enq (Bytes.raw (some ⟨"ADD", 1, "x", 5, ""⟩)),
       QOp.enq (Bytes.raw (some ⟨"FEED", 2, "", 0, ""⟩)),
       QOp.deq, QOp.deq, QOp.deq]) ∧
    ((runMS NewQueue
      [QOp.enq (Bytes.raw (some ⟨"ADD", 1, "x", 5, ""⟩)),
       QOp.enq (Bytes.raw (some ⟨"FEED", 2, "", 0, ""⟩)),
       QOp.deq, QOp.deq, QOp.deq]).1.rest =
      (runFifo []
      [QOp.enq (Bytes.raw (some ⟨"ADD", 1, "x", 5, ""⟩)),
       QOp.enq (Bytes.raw (some ⟨"FEED", 2, "", 0, ""⟩)),
       QOp.deq, QOp.deq, QOp.deq]).1 ∧
    (runMS NewQueue
      [QOp.enq (Bytes.raw (some ⟨"ADD", 1, "x", 5, ""⟩)),
       QOp.enq (Bytes.raw (some ⟨"FEED", 2, "", 0, ""⟩)),
       QOp.deq, QOp.deq, QOp.deq]).2 =
      (runFifo []
      [QOp.enq (Bytes.raw (some ⟨"ADD", 1, "x", 5, ""⟩)),
       QOp.enq (Bytes.raw (some ⟨"FEED", 2, "", 0, ""⟩)),
       QOp.deq, QOp.deq, QOp.deq]).2 ∧
    nonSent ((runFifo []
      [QOp.enq (Bytes.raw (some ⟨"ADD", 1, "x", 5, ""⟩)),
       QOp.enq (Bytes.raw (some ⟨"FEED", 2, "", 0, ""⟩)),
       QOp.deq, QOp.deq, QOp.deq]).2) ++
      (runFifo []
      [QOp.enq (Bytes.raw (some ⟨"ADD", 1, "x", 5, ""⟩)),
       QOp.enq (Bytes.raw (some ⟨"FEED", 2, "", 0, ""⟩)),
       QOp.deq, QOp.deq, QOp.deq]).1 =
      enqList
      [QOp.enq (Bytes.raw (some ⟨"ADD", 1, "x", 5, ""⟩)),
       QOp.enq (Bytes.raw (some ⟨"FEED", 2, "", 0, ""⟩)),
       QOp.deq, QOp.deq, QOp.deq] ∧
    ((runFifo []
      [QOp.enq (Bytes.raw (some ⟨"ADD", 1, "x", 5, ""⟩)),
       QOp.enq (Bytes.raw (some ⟨"FEED", 2, "", 0, ""⟩)),
       QOp.deq, QOp.deq, QOp.deq]).1 = [] →
      nonSent ((runFifo []
      [QOp.enq (Bytes.raw (some ⟨"ADD", 1, "x", 5, ""⟩)),
       QOp.enq (Bytes.raw (some ⟨"FEED", 2, "", 0, ""⟩)),
       QOp.deq, QOp.deq, QOp.deq]).2) =
      enqList
      [QOp.enq (Bytes.raw (some ⟨"ADD", 1, "x", 5, ""⟩)),
       QOp.enq (Bytes.raw (some ⟨"FEED", 2, "", 0, ""⟩)),
       QOp.deq, QOp.deq, QOp.deq])) :=
  ⟨by decide, c9_queue_refines_fifo _ (by decide)⟩

/-- Producer-side state: the linearized queue content, the shared
task counter, the done flag, and the lines printed to standard
output (fmt.Println writes there; the program never writes to the
error stream). -/
structure ProdState where
  queue : List Bytes
  numOfTasks : Int
  done : Bool
  output : List String
deriving DecidableEq, Repr

/-- The line fmt.Println("error: ", err) produces on a failed
unmarshal (twitter.go lines 460-462). -/
def errLine : String := "error: json unmarshal failure"

/-- The producer state before any input line is read. -/
def prodInit : ProdState := ⟨[], 0, false, []⟩

/-- The producer scanner loop (twitter.go lines 451-475): per line,
unmarshal — on failure print the diagnostic to standard output and
continue with the zero-valued message; if the command is not DONE,
enqueue the raw line bytes, increment the task counter and signal;
on DONE set the flag, broadcast and stop reading. -/
def producerRun (s : ProdState) : List Bytes → ProdState
  | [] => s
  | line :: rest =>
    let out' := match parseLine line with
      | some _ => s.output
      | none => s.output ++ [errLine]
    let cm := (parseLine line).getD zeroCM
    if cm.command ≠ "DONE" then
      producerRun ⟨s.queue ++ [line], s.numOfTasks + 1, s.done, out'⟩ rest
    else
      ⟨s.queue, s.numOfTasks, true, out'⟩

/-- Consumer-side state during a drain: the linearized queue content,
the shared task counter, and the standard-output lines. -/
structure ConsState where
  queue : List Bytes
  numOfTasks : Int
  output : List String
deriving DecidableEq, Repr

/-- The consumer block-drain loop (twitter.go lines 400-416): up to
block iterations; Dequeue, unmarshal — on failure print the
diagnostic and stop draining; on the sentinel value stop; otherwise
append the task to the local block and decrement the task counter. -/
def drainLoop (s : ConsState) (acc : List ClientMessage) :
    Nat → List ClientMessage × ConsState
  | 0 => (acc, s)
  | k + 1 =>
    let r := specDequeue s.queue
    match parseLine r.1 with
    | none => (acc, ⟨r.2, s.numOfTasks, s.output ++ [errLine]⟩)
    | some cm =>
      if cm.value = "sentinel" then (acc, ⟨r.2, s.numOfTasks, s.output⟩)
      else drainLoop ⟨r.2, s.numOfTasks - 1, s.output⟩ (acc ++ [cm]) k

/-- Counterexample to C3 as stated: a line of unparseable JSON is not
skipped by the producer — after the diagnostic (printed to standard
output, not the error stream) the zero-valued message's command is
not DONE, so the raw line is enqueued and the task counter
incremented. -/
theorem c3_counterexample :
    (producerRun prodInit [Bytes.raw none]).queue = [Bytes.raw none] ∧
    (producerRun prodInit [Bytes.raw none]).numOfTasks = 1 ∧
    (producerRun prodInit [Bytes.raw none]).output = [errLine] := by
  refine ⟨rfl, rfl, rfl⟩

/-- C3 amended: on an unparseable line the producer emits the
diagnostic to standard output and continues with the subsequent
lines, but it still enqueues the raw line and increments the task
counter; the consumer that dequeues such a payload emits a diagnostic
to standard output, abandons the remainder of its drain block, and
neither adds it to the executed block (so no response) nor decrements
the counter. A line that parses produces no diagnostic and is
enqueued normally when its command is not DONE. -/
theorem c3_malformed_line_handling (line : Bytes) (rest : List Bytes)
    (hbad : parseLine line = none) :
    (∀ s : ProdState,
      producerRun s (line :: rest) =
        producerRun ⟨s.queue ++ [line], s.numOfTasks + 1, s.done,
          s.output ++ [errLine]⟩ rest) ∧
    (∀ (q' : List Bytes) (n : Int) (out : List String)
        (acc : List ClientMessage) (k : Nat),
      drainLoop ⟨line :: q', n, out⟩ acc (k + 1) =
        (acc, ⟨q', n, out ++ [errLine]⟩)) ∧
    (∀ (good : Bytes) (cm : ClientMessage), parseLine good = some cm →
      cm.command ≠ "DONE" → ∀ s : ProdState,
      producerRun s (good :: rest) =
        producerRun ⟨s.queue ++ [good], s.numOfTasks + 1, s.done,
          s.output⟩ rest) := by
  refine ⟨?_, ?_, ?_⟩
  · intro s
    rw [producerRun, hbad]
    rfl
  · intro q' n out acc k
    rw [drainLoop]
    show (match parseLine line with
      | none => (acc, (⟨q', n, out ++ [errLine]⟩ : ConsState))
      | some cm =>
        if cm.value = "sentinel" then (acc, ⟨q', n, out⟩)
        else drainLoop ⟨q', n - 1, out⟩ (acc ++ [cm]) k) = _
    rw [hbad]
  · intro good cm hgood hcm s
    rw [producerRun, hgood]
    have hcm' : ((some cm).getD zeroCM).command ≠ "DONE" := hcm
    rw [if_pos hcm']

/-- Witness for C3 at a concrete malformed line followed by a good
line. -/
theorem c3_witness :
    parseLine (Bytes.raw none) = none ∧
    ((∀ s : ProdState,
      producerRun s (Bytes.raw none :: [Bytes.raw (some zeroCM)]) =
        producerRun ⟨s.queue ++ [Bytes.raw none], s.numOfTasks + 1, s.done,
          s.output ++ [errLine]⟩ [Bytes.raw (some zeroCM)]) ∧
    (∀ (q' : List Bytes) (n : Int) (out : List String)
        (acc : List ClientMessage) (k : Nat),
      drainLoop ⟨Bytes.raw none :: q', n, out⟩ acc (k + 1) =
        (acc, ⟨q', n, out ++ [errLine]⟩)) ∧
    (∀ (good : Bytes) (cm : ClientMessage), parseLine good = some cm →
      cm.command ≠ "DONE" → ∀ s : ProdState,
      producerRun s (good :: [Bytes.raw (some zeroCM)]) =
        producerRun ⟨s.queue ++ [good], s.numOfTasks + 1, s.done,
          s.output⟩ [Bytes.raw (some zeroCM)])) :=
  ⟨rfl, c3_malformed_line_handling (Bytes.raw none) [Bytes.raw (some zeroCM)] rfl⟩

/-- Counterexample to C4's distinguishability: the client request
with command ADD and a value field equal to "sentinel" is a real task
the producer enqueues, yet the worker drains zero tasks from a queue
holding it — the post-decode check reads it as the empty-queue
marker, and the task counter keeps its value. -/
theorem c4_counterexample :
    (producerRun prodInit
      [Bytes.raw (some ⟨"ADD", 1, "x", 5, "sentinel"⟩)]).queue =
      [Bytes.raw (some ⟨"ADD", 1, "x", 5, "sentinel"⟩)] ∧
    (drainLoop ⟨[Bytes.raw (some ⟨"ADD", 1, "x", 5, "sentinel"⟩)], 1, []⟩
      [] 3).1 = [] ∧
    (drainLoop ⟨[Bytes.raw (some ⟨"ADD", 1, "x", 5, "sentinel"⟩)], 1, []⟩
      [] 3).2.numOfTasks = 1 := by
  refine ⟨rfl, rfl, rfl⟩

/-- C4 amended: Dequeue on the empty queue does return a payload that
decodes to a record whose value field equals "sentinel"; but that
empty signal is not unambiguously distinguishable from real task
payloads: every client request whose decoded value field is
"sentinel" and whose command is not DONE passes the producer's guard
and is enqueued, and the worker's post-decode check then misreads it
as the empty-queue marker, dropping it from the drain. -/
theorem c4_sentinel_ambiguous :
    ((Dequeue NewQueue).1 = Bytes.sentinelPayload ∧
      parseLine (Dequeue NewQueue).1 = some sentinelCM ∧
      sentinelCM.value = "sentinel") ∧
    (∀ cm : ClientMessage, cm.value = "sentinel" → cm.command ≠ "DONE" →
      (∀ s : ProdState,
        (producerRun s [Bytes.raw (some cm)]).queue =
          s.queue ++ [Bytes.raw (some cm)]) ∧
      (∀ (q' : List Bytes) (n : Int) (out : List String)
          (acc : List ClientMessage) (k : Nat),
        drainLoop ⟨Bytes.raw (some cm) :: q', n, out⟩ acc (k + 1) =
          (acc, ⟨q', n, out⟩))) := by
  constructor
  · have hd : Dequeue NewQueue = (Bytes.sentinelPayload, NewQueue) := by
      rw [Dequeue, deqLoop_nil rfl]
    exact ⟨by rw [hd], by rw [hd]; rfl, rfl⟩
  · intro cm hval hcmd
    constructor
    · intro s
      rw [producerRun]
      rw [if_pos (by show ((parseLine (Bytes.raw (some cm))).getD zeroCM).command ≠ "DONE"; exact hcmd)]
      rfl
    · intro q' n out acc k
      rw [drainLoop]
      show (match parseLine (Bytes.raw (some cm)) with
        | none => (acc, (⟨q', n, out ++ [errLine]⟩ : ConsState))
        | some c =>
          if c.value = "sentinel" then (acc, ⟨q', n, out⟩)
          else drainLoop ⟨q', n - 1, out⟩ (acc ++ [c]) k) = _
      show (if cm.value = "sentinel" then (acc, (⟨q', n, out⟩ : ConsState))
        else drainLoop ⟨q', n - 1, out⟩ (acc ++ [cm]) k) = _
      rw [if_pos hval]

/-- Witness for C4 at the spoofed ADD request. -/
theorem c4_witness :
    ((Dequeue NewQueue).1 = Bytes.sentinelPayload ∧
      parseLine (Dequeue NewQueue).1 = some sentinelCM ∧
      sentinelCM.value = "sentinel") ∧
    ((∀ s : ProdState,
      (producerRun s [Bytes.raw (some ⟨"ADD", 1, "x", 5, "sentinel"⟩)]).queue =
        s.queue ++ [Bytes.raw (some ⟨"ADD", 1, "x", 5, "sentinel"⟩)]) ∧
    (∀ (q' : List Bytes) (n : Int) (out : List String)
        (acc : List ClientMessage) (k : Nat),
      drainLoop ⟨Bytes.raw (some ⟨"ADD", 1, "x", 5, "sentinel"⟩) :: q', n, out⟩
        acc (k + 1) = (acc, ⟨q', n, out⟩))) :=
  ⟨c4_sentinel_ambiguous.1,
   c4_sentinel_ambiguous.2 ⟨"ADD", 1, "x", 5, "sentinel"⟩ rfl (by decide)⟩

end Twitter
